import Mathlib

/-!
# Propositional formulas of `kodovi/01 iskazna_logika`

A shallow embedding of the three C++ programs of the directory:

* `main.cpp`    – tagged union, atoms are `unsigned` indices (`MainCpp`);
* `match.cpp`   – `std::variant` with the `match` helper, atoms are `std::string` names
  (`MatchCpp`);
* `visitor.cpp` – `std::variant` with a virtual visitor (`VisitorCpp`).

A `FormulaPtr` is a `std::shared_ptr` to a node that is never mutated after construction,
so a formula is modelled by the tree it unfolds to.  Sharing of sub-formulas is invisible in
the tree, but it lets a program build trees with far more than `2 ^ 32` nodes from a few dozen
allocations, which is why the machine arithmetic of `complexity` and `varcount` is kept.

Conventions:

* `unsigned` is 32 bits wide: arithmetic is taken modulo `2 ^ 32`;
* `int` is 32 bits wide: overflowing a signed `int` is undefined behaviour, modelled by `none`;
* `std::cout << ...` is modelled by passing the text written so far and returning it extended;
* an exception (`std::out_of_range` of `std::map::at`) is modelled by `none`.
-/

/-- Number of values of an `unsigned` (32 bits). -/
def UINT_MODULUS : Nat := 4294967296

/-- Largest value of an `int` (32 bits). -/
def INT_MAX : Int := 2147483647

/-- The statement `c++` on an `int`: the incremented value, or `none` when the increment
overflows (undefined behaviour). -/
def intIncrement (c : Int) : Option Int :=
  if c < INT_MAX then some (c + 1) else none

/-! ## `main.cpp` -/

namespace MainCpp

/-- The enumeration `BinaryData::Type`. -/
inductive BinaryType where
  | And
  | Or
  | Impl
  | Eql
  deriving DecidableEq, Repr

/-- The tagged union `Formula`, built by `False()`, `True()`, `Atom(n)`, `Not(f)` and
`Binary(t, l, r)`. -/
inductive Formula where
  | False : Formula
  | True : Formula
  | Atom (n : Nat) : Formula
  | Not (f : Formula) : Formula
  | Binary (type : BinaryType) (l r : Formula) : Formula
  deriving DecidableEq, Repr

/-- The type `Valuation` is `std::map<unsigned, bool>`; `val n` is `some b` when the key `n` is
bound to `b` and `none` when the key is absent. -/
abbrev Valuation := Nat → Option Bool

/-- The map with the given bindings (for a repeated key the first binding counts). -/
def Valuation.ofList (bindings : List (Nat × Bool)) : Valuation :=
  fun n => bindings.lookup n

/-- The function `printFormula`, on the text written to `std::cout` so far. -/
def printFormula : Formula → String → String
  | .False, out => out ++ "F"
  | .True, out => out ++ "T"
  | .Atom n, out => (out ++ "p") ++ toString n
  | .Not f, out => printFormula f (out ++ "~")
  | .Binary type l r, out =>
      let out1 := printFormula l (out ++ "(")
      let out2 :=
        match type with
        | .And => out1 ++ " & "
        | .Or => out1 ++ " | "
        | .Impl => out1 ++ " -> "
        | .Eql => out1 ++ " <-> "
      printFormula r out2 ++ ")"

/-- The function `complexity`; the result type is `unsigned`. -/
def complexity : Formula → Nat
  | .False => 0
  | .True => 0
  | .Atom _ => 0
  | .Not f => (1 + complexity f) % UINT_MODULUS
  | .Binary _ l r => (1 + complexity l + complexity r) % UINT_MODULUS

/-- The function `equal`: `false` when the two tags differ, otherwise a comparison by tag. -/
def equal : Formula → Formula → Bool
  | .True, .True => true
  | .False, .False => true
  | .Atom n, .Atom m => n == m
  | .Not f, .Not g => equal f g
  | .Binary t l r, .Binary t' l' r' =>
      if t ≠ t' then false else equal l l' && equal r r'
  | _, _ => false

/-- The function `substitute`. -/
def substitute (formula what with_ : Formula) : Formula :=
  if equal formula what then with_
  else
    match formula with
    | .True => formula
    | .False => formula
    | .Atom _ => formula
    | .Not f => .Not (substitute f what with_)
    | .Binary type l r =>
        let lSub := substitute l what with_
        let rSub := substitute r what with_
        .Binary type lSub rSub

/-- The function `evaluate`; `none` is the exception thrown by `val.at`. Both operands of a
binary node are evaluated, the left one first, before the connective is looked at. -/
def evaluate : Formula → Valuation → Option Bool
  | .False, _ => some false
  | .True, _ => some true
  | .Atom n, val => val n
  | .Not f, val => do
      let b ← evaluate f val
      pure (!b)
  | .Binary type l r, val => do
      let lEval ← evaluate l val
      let rEval ← evaluate r val
      match type with
      | .And => pure (lEval && rEval)
      | .Or => pure (lEval || rEval)
      | .Impl => pure (!lEval || rEval)
      | .Eql => pure (lEval == rEval)

/-- The formula `F` built by `main`: `(p0 & p1) -> ~p2`. -/
def demoFormula : Formula :=
  .Binary .Impl (.Binary .And (.Atom 0) (.Atom 1)) (.Not (.Atom 2))

end MainCpp

/-! ## `match.cpp` -/

namespace MatchCpp

/-- The enumeration `Binary::Type`. -/
inductive BinaryType where
  | And
  | Or
  | Impl
  | Eql
  deriving DecidableEq, Repr

/-- The variant `Formula` over `False`, `True`, `Atom`, `Not` and `Binary`. -/
inductive Formula where
  | False : Formula
  | True : Formula
  | Atom (name : String) : Formula
  | Not (f : Formula) : Formula
  | Binary (type : BinaryType) (l r : Formula) : Formula
  deriving DecidableEq, Repr

/-- The function `complexity` with its handlers `complexityF` ... `complexityB`, dispatched by
the `match` helper; the result type is `unsigned`. -/
def complexity : Formula → Nat
  | .False => 0
  | .True => 0
  | .Atom _ => 0
  | .Not f => (1 + complexity f) % UINT_MODULUS
  | .Binary _ l r => (1 + complexity l + complexity r) % UINT_MODULUS

/-- The function `varcount` with its handlers `varcountF` ... `varcountB`, on the value of the
accumulator `int& c`; `none` when a `c++` overflows. -/
def varcount : Formula → Int → Option Int
  | .False, c => some c
  | .True, c => some c
  | .Atom _, c => intIncrement c
  | .Not f, c => varcount f c
  | .Binary _ l r, c => do
      let c1 ← varcount l c
      varcount r c1

/-- The function `sign`. -/
def sign : BinaryType → String
  | .And => " & "
  | .Or => " | "
  | .Impl => " -> "
  | .Eql => " <-> "

/-- The function `print` with its handlers `printF` ... `printB`, on the text written to
`std::cout` so far. -/
def print : Formula → String → String
  | .False, out => out ++ "F"
  | .True, out => out ++ "T"
  | .Atom name, out => out ++ name
  | .Not f, out => print f (out ++ "~")
  | .Binary type l r, out =>
      let out1 := print l (out ++ "(")
      let out2 := out1 ++ sign type
      print r out2 ++ ")"

/-- The function `equal` with its handlers `equalF` ... `equalB`: dispatch on the variant of
`f`, each handler tests the variant of `g`. -/
def equal : Formula → Formula → Bool
  | .False, g => match g with
      | .False => true
      | _ => false
  | .True, g => match g with
      | .True => true
      | _ => false
  | .Atom name, g => match g with
      | .Atom name' => name == name'
      | _ => false
  | .Not f, g => match g with
      | .Not g' => equal f g'
      | _ => false
  | .Binary type l r, g => match g with
      | .Binary type' l' r' => (type == type') && equal l l' && equal r r'
      | _ => false

/-- The formula `F` built by `main`: `p0`, `p1`, `p2` are the atoms named so, `leftF` is
`Binary{And, p0, p1}`, `rightF` is `Not{p0}` and `F` is `Binary{Impl, leftF, rightF}`. -/
def mainFormula : Formula :=
  .Binary .Impl (.Binary .And (.Atom "p0") (.Atom "p1")) (.Not (.Atom "p0"))

/-- The formula of the comment above `main` and of the acceptance scenario:
`(p0 & p1) -> ~p2`. -/
def demoFormula : Formula :=
  .Binary .Impl (.Binary .And (.Atom "p0") (.Atom "p1")) (.Not (.Atom "p2"))

end MatchCpp

/-! ## `visitor.cpp` -/

namespace VisitorCpp

/-- The enumeration `Binary::Type`. -/
inductive BinaryType where
  | And
  | Or
  | Imp
  | Eq
  deriving DecidableEq, Repr

/-- The variant `Formula` over `False`, `True`, `Atom`, `Not` and `Binary`. -/
inductive Formula where
  | False : Formula
  | True : Formula
  | Atom (name : String) : Formula
  | Not (f : Formula) : Formula
  | Binary (type : BinaryType) (l r : Formula) : Formula
  deriving DecidableEq, Repr

/-- The function `varcount`: the visitor `Varcount` (`visitF` ... `visitB`) run by
`Visitor::visit`, on the value of the accumulator `int& c`; `none` when a `c++` overflows. -/
def varcount : Formula → Int → Option Int
  | .False, c => some c
  | .True, c => some c
  | .Atom _, c => intIncrement c
  | .Not node, c => varcount node c
  | .Binary _ l r, c => do
      let c1 ← varcount l c
      varcount r c1

end VisitorCpp

/-! ## Reference definitions of the specification -/

namespace MainCpp

/-- Reference substitution, in the words of the specification: a node equal to `what` is
replaced whole by `with_`; otherwise a leaf is kept and a composite node is rebuilt, with its
operator, from its substituted children. -/
def substituteRef (what with_ : Formula) : Formula → Formula
  | .False => if equal .False what then with_ else .False
  | .True => if equal .True what then with_ else .True
  | .Atom n => if equal (.Atom n) what then with_ else .Atom n
  | .Not g => if equal (.Not g) what then with_ else .Not (substituteRef what with_ g)
  | .Binary op l r =>
      if equal (.Binary op l r) what then with_
      else .Binary op (substituteRef what with_ l) (substituteRef what with_ r)

/-- The atom indices occurring in a formula, one entry per occurrence, left to right. -/
def atoms : Formula → List Nat
  | .False => []
  | .True => []
  | .Atom n => [n]
  | .Not f => atoms f
  | .Binary _ l r => atoms l ++ atoms r

/-- A valuation binds all atoms occurring in a formula. -/
def Binds (val : Valuation) (f : Formula) : Prop :=
  ∀ n ∈ atoms f, (val n).isSome = true

instance decidableBinds (val : Valuation) (f : Formula) : Decidable (Binds val f) :=
  inferInstanceAs (Decidable (∀ n ∈ atoms f, (val n).isSome = true))

/-- Classical truth value of a formula under a total assignment of its atoms. -/
def truthValue (a : Nat → Bool) : Formula → Bool
  | .False => false
  | .True => true
  | .Atom n => a n
  | .Not f => !truthValue a f
  | .Binary .And l r => truthValue a l && truthValue a r
  | .Binary .Or l r => truthValue a l || truthValue a r
  | .Binary .Impl l r => !truthValue a l || truthValue a r
  | .Binary .Eql l r => truthValue a l == truthValue a r

/-- The total assignment read off a valuation (`v[n]`); absent keys read as `false`. -/
def Valuation.assignment (val : Valuation) : Nat → Bool :=
  fun n => (val n).getD false

/-- Connective symbol of the rendering rules. -/
def renderSign : BinaryType → String
  | .And => " & "
  | .Or => " | "
  | .Impl => " -> "
  | .Eql => " <-> "

/-- Rendering rules of the specification, atoms displayed as `p` followed by the decimal
index. -/
def render : Formula → String
  | .False => "F"
  | .True => "T"
  | .Atom n => "p" ++ Nat.repr n
  | .Not g => "~" ++ render g
  | .Binary op l r => "(" ++ render l ++ renderSign op ++ render r ++ ")"

/-- Number of `Not` and `Binary` nodes in the tree of a formula. -/
def connectives : Formula → Nat
  | .False => 0
  | .True => 0
  | .Atom _ => 0
  | .Not g => 1 + connectives g
  | .Binary _ l r => 1 + connectives l + connectives r

/-- The formula built by `n` statements `f = And(f, f)` from `f = Atom(0)`: `n + 1` nodes in
memory, a full binary tree of depth `n` as a value. -/
def sharedAnd : Nat → Formula
  | 0 => .Atom 0
  | n + 1 => .Binary .And (sharedAnd n) (sharedAnd n)

/-- A formula with exactly `2 ^ 32` connectives: `Not(f)` over thirty-two doublings. -/
def wrapFormula : Formula := .Not (sharedAnd 32)

/-- The valuation `{p0:true, p1:true, p2:false}`. -/
def valuationB : Valuation := Valuation.ofList [(0, true), (1, true), (2, false)]

/-- The valuation `{p0:true, p1:false, p2:true}`. -/
def valuationC : Valuation := Valuation.ofList [(0, true), (1, false), (2, true)]

/-- A valuation with `p1` missing: `{p0:true, p2:false}`. -/
def valuationD : Valuation := Valuation.ofList [(0, true), (2, false)]

/-- The empty valuation. -/
def valuationEmpty : Valuation := Valuation.ofList []

end MainCpp

namespace MatchCpp

/-- Connective symbol of the rendering rules. -/
def renderSign : BinaryType → String
  | .And => " & "
  | .Or => " | "
  | .Impl => " -> "
  | .Eql => " <-> "

/-- Rendering rules of the specification, atoms displayed as their stored name. -/
def render : Formula → String
  | .False => "F"
  | .True => "T"
  | .Atom name => name
  | .Not g => "~" ++ render g
  | .Binary op l r => "(" ++ render l ++ renderSign op ++ render r ++ ")"

/-- Number of `Not` and `Binary` nodes in the tree of a formula. -/
def connectives : Formula → Nat
  | .False => 0
  | .True => 0
  | .Atom _ => 0
  | .Not g => 1 + connectives g
  | .Binary _ l r => 1 + connectives l + connectives r

/-- Number of `Atom` leaves of a formula, every occurrence counted. -/
def atomCount : Formula → Nat
  | .False => 0
  | .True => 0
  | .Atom _ => 1
  | .Not g => atomCount g
  | .Binary _ l r => atomCount l + atomCount r

/-- The formula built by `n` statements `f = ptr(Binary(And, f, f))` from `f = ptr(Atom("p"))`. -/
def sharedAnd : Nat → Formula
  | 0 => .Atom "p"
  | n + 1 => .Binary .And (sharedAnd n) (sharedAnd n)

/-- A formula with exactly `2 ^ 32` connectives. -/
def wrapFormula : Formula := .Not (sharedAnd 32)

end MatchCpp

namespace VisitorCpp

/-- Number of `Atom` leaves of a formula, every occurrence counted. -/
def atomCount : Formula → Nat
  | .False => 0
  | .True => 0
  | .Atom _ => 1
  | .Not g => atomCount g
  | .Binary _ l r => atomCount l + atomCount r

/-- The formula `(p0 & p1) -> ~p2` with the connective names of `visitor.cpp`. -/
def demoFormula : Formula :=
  .Binary .Imp (.Binary .And (.Atom "p0") (.Atom "p1")) (.Not (.Atom "p2"))

end VisitorCpp

/-! ## Definitions for substitution, rendering and translation -/

namespace MainCpp

/-- The sub-formulas of a formula, the formula itself included. -/
def subformulas : Formula → List Formula
  | .False => [.False]
  | .True => [.True]
  | .Atom n => [.Atom n]
  | .Not g => .Not g :: subformulas g
  | .Binary op l r => .Binary op l r :: (subformulas l ++ subformulas r)

/-- No sub-formula of `f` (`f` itself included) is structurally equal to `what`. -/
def Absent (what f : Formula) : Prop :=
  ∀ s ∈ subformulas f, equal s what = false

instance decidableAbsent (what f : Formula) : Decidable (Absent what f) :=
  inferInstanceAs (Decidable (∀ s ∈ subformulas f, equal s what = false))

/-- The characters of `render f`. -/
def renderChars : Formula → List Char
  | .False => ['F']
  | .True => ['T']
  | .Atom n => 'p' :: Nat.toDigits 10 n
  | .Not g => '~' :: renderChars g
  | .Binary op l r =>
      '(' :: (renderChars l ++ ((renderSign op).data ++ (renderChars r ++ [')'])))

/-- A decimal digit character. -/
def IsDecimalDigit (c : Char) : Prop := 48 ≤ c.toNat ∧ c.toNat ≤ 57

/-- The text is empty or starts with a character that is not a decimal digit. -/
def NoDigitAhead : List Char → Prop
  | [] => True
  | c :: _ => ¬ IsDecimalDigit c

/-- The number read from a list of decimal digit characters, most significant first. -/
def decimalValue (cs : List Char) : Nat :=
  cs.foldl (fun acc c => 10 * acc + (c.toNat - 48)) 0

/-- The formula `Not(Not(p0))`, in which `Not(p0)` is replaced by `p0`. -/
def doubleNegation : Formula := .Not (.Not (.Atom 0))

end MainCpp

namespace MatchCpp

/-- The text written by `main` (`std::endl` is a newline), or `none` when `varcount`
overflows. -/
def mainOutput : Option String := do
  let out := print mainFormula ""
  let out := out ++ "\n"
  let out := out ++ toString (complexity mainFormula)
  let out := out ++ "\n"
  let c ← varcount mainFormula 0
  let out := out ++ toString c
  pure (out ++ "\n")

end MatchCpp

/-- The formula of `match.cpp` that a formula of `main.cpp` stands for: atom `n` is named `p`
followed by the decimal form of `n`. -/
def toMatchFormula : MainCpp.Formula → MatchCpp.Formula
  | .False => .False
  | .True => .True
  | .Atom n => .Atom ("p" ++ Nat.repr n)
  | .Not f => .Not (toMatchFormula f)
  | .Binary .And l r => .Binary .And (toMatchFormula l) (toMatchFormula r)
  | .Binary .Or l r => .Binary .Or (toMatchFormula l) (toMatchFormula r)
  | .Binary .Impl l r => .Binary .Impl (toMatchFormula l) (toMatchFormula r)
  | .Binary .Eql l r => .Binary .Eql (toMatchFormula l) (toMatchFormula r)

/-! ## Structural equality -/

theorem main_equal_iff_eq (f : MainCpp.Formula) :
    ∀ g : MainCpp.Formula, MainCpp.equal f g = true ↔ f = g := by
  induction f with
  | False => intro g; cases g <;> simp [MainCpp.equal]
  | True => intro g; cases g <;> simp [MainCpp.equal]
  | Atom n => intro g; cases g <;> simp [MainCpp.equal]
  | Not f ih => intro g; cases g <;> simp [MainCpp.equal, ih]
  | Binary t l r ihl ihr =>
      intro g
      cases g <;> simp [MainCpp.equal, ihl, ihr]

theorem match_equal_iff_eq (f : MatchCpp.Formula) :
    ∀ g : MatchCpp.Formula, MatchCpp.equal f g = true ↔ f = g := by
  induction f with
  | False => intro g; cases g <;> simp [MatchCpp.equal]
  | True => intro g; cases g <;> simp [MatchCpp.equal]
  | Atom n => intro g; cases g <;> simp [MatchCpp.equal]
  | Not f ih => intro g; cases g <;> simp [MatchCpp.equal, ih]
  | Binary t l r ihl ihr =>
      intro g
      cases g <;> simp [MatchCpp.equal, ihl, ihr, and_assoc]

/-- Claim C1: in `main.cpp` and in `match.cpp`, `equal(f, g)` returns true exactly when `f` and
`g` are the same tree (same variant, same atom identifier, same operator, same sub-formulas). -/
theorem equal_true_iff_same_tree :
    (∀ f g : MainCpp.Formula, MainCpp.equal f g = true ↔ f = g) ∧
    (∀ f g : MatchCpp.Formula, MatchCpp.equal f g = true ↔ f = g) :=
  ⟨main_equal_iff_eq, match_equal_iff_eq⟩

theorem main_equal_eq_decide (f g : MainCpp.Formula) :
    MainCpp.equal f g = decide (f = g) := by
  rw [Bool.eq_iff_iff, main_equal_iff_eq]
  simp

theorem match_equal_eq_decide (f g : MatchCpp.Formula) :
    MatchCpp.equal f g = decide (f = g) := by
  rw [Bool.eq_iff_iff, match_equal_iff_eq]
  simp

/-- Claim C8: `equal(f, g) == equal(g, f)` for every two formulas, in `main.cpp` and in
`match.cpp`, although both dispatch on the variant of the first argument. -/
theorem equal_symmetric :
    (∀ f g : MainCpp.Formula, MainCpp.equal f g = MainCpp.equal g f) ∧
    (∀ f g : MatchCpp.Formula, MatchCpp.equal f g = MatchCpp.equal g f) := by
  constructor
  · intro f g
    rw [main_equal_eq_decide, main_equal_eq_decide]
    exact decide_eq_decide.mpr eq_comm
  · intro f g
    rw [match_equal_eq_decide, match_equal_eq_decide]
    exact decide_eq_decide.mpr eq_comm

/-- Claim C9: `equal(f, f)` is true for every formula, in `main.cpp` and in `match.cpp`. -/
theorem equal_reflexive :
    (∀ f : MainCpp.Formula, MainCpp.equal f f = true) ∧
    (∀ f : MatchCpp.Formula, MatchCpp.equal f f = true) :=
  ⟨fun f => (main_equal_iff_eq f f).mpr rfl, fun f => (match_equal_iff_eq f f).mpr rfl⟩

/-- Claim C10: if `equal(f, g)` and `equal(g, h)` are true then `equal(f, h)` is true, in
`main.cpp` and in `match.cpp`; with reflexivity and symmetry, the relation "`equal` returns
true" is an equivalence relation on formulas. -/
theorem equal_transitive :
    (∀ f g h : MainCpp.Formula,
      MainCpp.equal f g = true → MainCpp.equal g h = true → MainCpp.equal f h = true) ∧
    (∀ f g h : MatchCpp.Formula,
      MatchCpp.equal f g = true → MatchCpp.equal g h = true → MatchCpp.equal f h = true) ∧
    Equivalence (fun f g : MainCpp.Formula => MainCpp.equal f g = true) ∧
    Equivalence (fun f g : MatchCpp.Formula => MatchCpp.equal f g = true) := by
  have t1 : ∀ f g h : MainCpp.Formula,
      MainCpp.equal f g = true → MainCpp.equal g h = true → MainCpp.equal f h = true := by
    intro f g h hfg hgh
    rw [main_equal_iff_eq] at hfg hgh ⊢
    exact hfg.trans hgh
  have t2 : ∀ f g h : MatchCpp.Formula,
      MatchCpp.equal f g = true → MatchCpp.equal g h = true → MatchCpp.equal f h = true := by
    intro f g h hfg hgh
    rw [match_equal_iff_eq] at hfg hgh ⊢
    exact hfg.trans hgh
  refine ⟨t1, t2, ⟨?_, ?_, ?_⟩, ⟨?_, ?_, ?_⟩⟩
  · intro f
    exact (main_equal_iff_eq f f).mpr rfl
  · intro f g h
    rw [main_equal_iff_eq] at h ⊢
    exact h.symm
  · intro f g h hfg hgh
    exact t1 f g h hfg hgh
  · intro f
    exact (match_equal_iff_eq f f).mpr rfl
  · intro f g h
    rw [match_equal_iff_eq] at h ⊢
    exact h.symm
  · intro f g h hfg hgh
    exact t2 f g h hfg hgh

/-- Witness of C10 at `Not(p0)` in `main.cpp` and at `Not(p0)` in `match.cpp`. -/
theorem equal_transitive_witness :
    MainCpp.equal (.Not (.Atom 0)) (.Not (.Atom 0)) = true ∧
    MatchCpp.equal (.Not (.Atom "p0")) (.Not (.Atom "p0")) = true :=
  ⟨equal_transitive.1 (.Not (.Atom 0)) (.Not (.Atom 0)) (.Not (.Atom 0)) (by decide) (by decide),
   equal_transitive.2.1 (.Not (.Atom "p0")) (.Not (.Atom "p0")) (.Not (.Atom "p0"))
     (by decide) (by decide)⟩

/-! ## Substitution -/

/-- Claim C2: `substitute(f, what, with)` is the reference substitution: `with` when
`equal(f, what)`, otherwise a leaf unchanged, `Not` of the substituted sub-formula, or `Binary`
with the same operator over the substituted operands. -/
theorem substitute_eq_reference (f what with_ : MainCpp.Formula) :
    MainCpp.substitute f what with_ = MainCpp.substituteRef what with_ f := by
  induction f with
  | False => unfold MainCpp.substitute MainCpp.substituteRef; split <;> rfl
  | True => unfold MainCpp.substitute MainCpp.substituteRef; split <;> rfl
  | Atom n => unfold MainCpp.substitute MainCpp.substituteRef; split <;> rfl
  | Not g ih =>
      unfold MainCpp.substitute MainCpp.substituteRef
      split
      · rfl
      · simp only [ih]
  | Binary op l r ihl ihr =>
      unfold MainCpp.substitute MainCpp.substituteRef
      split
      · rfl
      · simp only [ihl, ihr]

/-! ## Evaluation -/

theorem main_evaluate_of_agree (a : Nat → Bool) (val : MainCpp.Valuation)
    (f : MainCpp.Formula) (h : ∀ n ∈ MainCpp.atoms f, val n = some (a n)) :
    MainCpp.evaluate f val = some (MainCpp.truthValue a f) := by
  induction f with
  | False => rfl
  | True => rfl
  | Atom n => simpa [MainCpp.evaluate, MainCpp.truthValue, MainCpp.atoms] using h
  | Not g ih =>
      have hg := ih (by simpa [MainCpp.atoms] using h)
      simp [MainCpp.evaluate, MainCpp.truthValue, hg]
  | Binary op l r ihl ihr =>
      have hl := ihl (fun n hn => h n (by simp [MainCpp.atoms, hn]))
      have hr := ihr (fun n hn => h n (by simp [MainCpp.atoms, hn]))
      cases op <;> simp [MainCpp.evaluate, MainCpp.truthValue, hl, hr]

theorem main_evaluate_eq_none_iff (val : MainCpp.Valuation) (f : MainCpp.Formula) :
    MainCpp.evaluate f val = none ↔ ∃ n ∈ MainCpp.atoms f, val n = none := by
  induction f with
  | False => simp [MainCpp.evaluate, MainCpp.atoms]
  | True => simp [MainCpp.evaluate, MainCpp.atoms]
  | Atom n => simp [MainCpp.evaluate, MainCpp.atoms]
  | Not g ih =>
      have key : MainCpp.evaluate (.Not g) val = none ↔ MainCpp.evaluate g val = none := by
        cases hg : MainCpp.evaluate g val <;> simp [MainCpp.evaluate, hg]
      rw [key, ih]
      simp [MainCpp.atoms]
  | Binary op l r ihl ihr =>
      have key : MainCpp.evaluate (.Binary op l r) val = none ↔
          (MainCpp.evaluate l val = none ∨ MainCpp.evaluate r val = none) := by
        cases hl : MainCpp.evaluate l val <;> cases hr : MainCpp.evaluate r val <;>
          cases op <;> simp [MainCpp.evaluate, hl, hr]
      rw [key, ihl, ihr]
      simp only [MainCpp.atoms, List.mem_append]
      constructor
      · rintro (⟨n, hn, h⟩ | ⟨n, hn, h⟩)
        · exact ⟨n, Or.inl hn, h⟩
        · exact ⟨n, Or.inr hn, h⟩
      · rintro ⟨n, hn | hn, h⟩
        · exact Or.inl ⟨n, hn, h⟩
        · exact Or.inr ⟨n, hn, h⟩

/-- Claim C3: under a valuation that binds all atoms of `f`, `evaluate(f, v)` returns the
classical truth value of `f` (`v[n]` for an atom, negation, conjunction, disjunction,
`(not l) or r`, `l = r`); `(p0 & p1) -> ~p2` is true under `{p0:true, p1:true, p2:false}` and
under `{p0:true, p1:false, p2:true}`. -/
theorem evaluate_classical :
    (∀ (f : MainCpp.Formula) (val : MainCpp.Valuation), MainCpp.Binds val f →
      MainCpp.evaluate f val
        = some (MainCpp.truthValue (MainCpp.Valuation.assignment val) f)) ∧
    MainCpp.evaluate MainCpp.demoFormula MainCpp.valuationB = some true ∧
    MainCpp.evaluate MainCpp.demoFormula MainCpp.valuationC = some true := by
  refine ⟨?_, by decide, by decide⟩
  intro f val hb
  apply main_evaluate_of_agree
  intro n hn
  have h := hb n hn
  cases hv : val n with
  | none => simp [hv] at h
  | some b => simp [MainCpp.Valuation.assignment, hv]

/-- Witness of C3: `(p0 & p1) -> ~p2` under `{p0:true, p1:true, p2:false}`. -/
theorem evaluate_classical_witness :
    MainCpp.Binds MainCpp.valuationB MainCpp.demoFormula ∧
    MainCpp.evaluate MainCpp.demoFormula MainCpp.valuationB
      = some (MainCpp.truthValue (MainCpp.Valuation.assignment MainCpp.valuationB)
          MainCpp.demoFormula) :=
  ⟨by decide, evaluate_classical.1 MainCpp.demoFormula MainCpp.valuationB (by decide)⟩

/-- Claim C4: `evaluate(f, v)` throws exactly when some atom occurring in `f` is absent from
`v`; both operands of a binary node are evaluated, so `And(False, Atom 5)` throws under the
empty valuation, and `(p0 & p1) -> ~p2` throws whenever `p1` is missing. -/
theorem evaluate_throws_iff_unbound :
    (∀ (f : MainCpp.Formula) (val : MainCpp.Valuation),
      MainCpp.evaluate f val = none ↔ ∃ n ∈ MainCpp.atoms f, val n = none) ∧
    MainCpp.evaluate (.Binary .And .False (.Atom 5)) MainCpp.valuationEmpty = none ∧
    (∀ val : MainCpp.Valuation, val 1 = none →
      MainCpp.evaluate MainCpp.demoFormula val = none) := by
  refine ⟨fun f val => main_evaluate_eq_none_iff val f, by decide, ?_⟩
  intro val h1
  rw [main_evaluate_eq_none_iff]
  exact ⟨1, by decide, h1⟩

/-- Witness of C4: `(p0 & p1) -> ~p2` under `{p0:true, p2:false}`. -/
theorem evaluate_throws_iff_unbound_witness :
    MainCpp.valuationD 1 = none ∧
    MainCpp.evaluate MainCpp.demoFormula MainCpp.valuationD = none :=
  ⟨by decide, evaluate_throws_iff_unbound.2.2 MainCpp.valuationD (by decide)⟩

/-! ## Rendering -/

theorem main_printFormula_eq (f : MainCpp.Formula) :
    ∀ out : String, MainCpp.printFormula f out = out ++ MainCpp.render f := by
  induction f with
  | False => intro out; rfl
  | True => intro out; rfl
  | Atom n => intro out; simp [MainCpp.printFormula, MainCpp.render, String.append_assoc]; rfl
  | Not g ih => intro out; simp [MainCpp.printFormula, MainCpp.render, ih, String.append_assoc]
  | Binary op l r ihl ihr =>
      intro out
      cases op <;>
        simp [MainCpp.printFormula, MainCpp.render, MainCpp.renderSign, ihl, ihr,
          String.append_assoc]

theorem match_print_eq (f : MatchCpp.Formula) :
    ∀ out : String, MatchCpp.print f out = out ++ MatchCpp.render f := by
  induction f with
  | False => intro out; rfl
  | True => intro out; rfl
  | Atom n => intro out; rfl
  | Not g ih => intro out; simp [MatchCpp.print, MatchCpp.render, ih, String.append_assoc]
  | Binary op l r ihl ihr =>
      intro out
      cases op <;>
        simp [MatchCpp.print, MatchCpp.render, MatchCpp.sign, MatchCpp.renderSign, ihl, ihr,
          String.append_assoc]

/-- Claim C5: the text written by `printFormula` (`main.cpp`) and by `print` (`match.cpp`) is
the text written before followed by `render(f)`: `F`, `T`, the display form of an atom, `~`
before a negated formula without parentheses, and a fully parenthesised binary node with the
sign of its operator; `(p0 & p1) -> ~p2` is written as `((p0 & p1) -> ~p2)`. -/
theorem print_eq_render :
    (∀ (f : MainCpp.Formula) (out : String),
      MainCpp.printFormula f out = out ++ MainCpp.render f) ∧
    (∀ (f : MatchCpp.Formula) (out : String),
      MatchCpp.print f out = out ++ MatchCpp.render f) ∧
    (∀ f : MainCpp.Formula, MainCpp.printFormula f "" = MainCpp.render f) ∧
    (∀ f : MatchCpp.Formula, MatchCpp.print f "" = MatchCpp.render f) ∧
    MainCpp.printFormula MainCpp.demoFormula "" = "((p0 & p1) -> ~p2)" ∧
    MatchCpp.print MatchCpp.demoFormula "" = "((p0 & p1) -> ~p2)" :=
  ⟨main_printFormula_eq, match_print_eq,
   fun f => (main_printFormula_eq f "").trans (String.empty_append _),
   fun f => (match_print_eq f "").trans (String.empty_append _), by decide, by decide⟩

/-! ## Complexity -/

theorem main_complexity_eq_mod (f : MainCpp.Formula) :
    MainCpp.complexity f = MainCpp.connectives f % UINT_MODULUS := by
  induction f with
  | False => rfl
  | True => rfl
  | Atom n => rfl
  | Not g ih =>
      simp only [MainCpp.complexity, MainCpp.connectives, ih, UINT_MODULUS]
      omega
  | Binary op l r ihl ihr =>
      simp only [MainCpp.complexity, MainCpp.connectives, ihl, ihr, UINT_MODULUS]
      omega

theorem match_complexity_eq_mod (f : MatchCpp.Formula) :
    MatchCpp.complexity f = MatchCpp.connectives f % UINT_MODULUS := by
  induction f with
  | False => rfl
  | True => rfl
  | Atom n => rfl
  | Not g ih =>
      simp only [MatchCpp.complexity, MatchCpp.connectives, ih, UINT_MODULUS]
      omega
  | Binary op l r ihl ihr =>
      simp only [MatchCpp.complexity, MatchCpp.connectives, ihl, ihr, UINT_MODULUS]
      omega

theorem main_connectives_sharedAnd (n : Nat) :
    MainCpp.connectives (MainCpp.sharedAnd n) + 1 = 2 ^ n := by
  induction n with
  | zero => rfl
  | succ n ih =>
      simp only [MainCpp.sharedAnd, MainCpp.connectives]
      rw [pow_succ]
      omega

theorem match_connectives_sharedAnd (n : Nat) :
    MatchCpp.connectives (MatchCpp.sharedAnd n) + 1 = 2 ^ n := by
  induction n with
  | zero => rfl
  | succ n ih =>
      simp only [MatchCpp.sharedAnd, MatchCpp.connectives]
      rw [pow_succ]
      omega

theorem match_connectives_wrapFormula :
    MatchCpp.connectives MatchCpp.wrapFormula = 4294967296 := by
  have h := match_connectives_sharedAnd 32
  have e : MatchCpp.connectives MatchCpp.wrapFormula
      = 1 + MatchCpp.connectives (MatchCpp.sharedAnd 32) := rfl
  rw [e]
  omega

theorem main_connectives_wrapFormula :
    MainCpp.connectives MainCpp.wrapFormula = 4294967296 := by
  have h := main_connectives_sharedAnd 32
  have e : MainCpp.connectives MainCpp.wrapFormula
      = 1 + MainCpp.connectives (MainCpp.sharedAnd 32) := rfl
  rw [e]
  omega

/-- Counterexample to C6 as stated: `Not(f)` over thirty-two doublings `f = And(f, f)` of an
atom has `2 ^ 32` connectives and `complexity` returns 0 for it, in `main.cpp` and in
`match.cpp`. -/
theorem complexity_wraps :
    MainCpp.complexity MainCpp.wrapFormula = 0 ∧
    MainCpp.connectives MainCpp.wrapFormula = 4294967296 ∧
    MainCpp.complexity MainCpp.wrapFormula ≠ MainCpp.connectives MainCpp.wrapFormula ∧
    MatchCpp.complexity MatchCpp.wrapFormula = 0 ∧
    MatchCpp.connectives MatchCpp.wrapFormula = 4294967296 ∧
    MatchCpp.complexity MatchCpp.wrapFormula ≠ MatchCpp.connectives MatchCpp.wrapFormula := by
  have hc : MainCpp.complexity MainCpp.wrapFormula = 0 := by
    rw [main_complexity_eq_mod, main_connectives_wrapFormula]
    rfl
  have hc' : MatchCpp.complexity MatchCpp.wrapFormula = 0 := by
    rw [match_complexity_eq_mod, match_connectives_wrapFormula]
    rfl
  refine ⟨hc, main_connectives_wrapFormula, ?_, hc', match_connectives_wrapFormula, ?_⟩
  · rw [hc, main_connectives_wrapFormula]
    decide
  · rw [hc', match_connectives_wrapFormula]
    decide

/-- Claim C6, amended: in `main.cpp` and in `match.cpp`, `complexity(f)` is the number of `Not`
and `Binary` nodes of the tree of `f` reduced modulo `2 ^ 32`, hence that number itself
whenever it is below `2 ^ 32`; for `(p0 & p1) -> ~p2` the result is 3. -/
theorem complexity_counts_connectives :
    (∀ f : MainCpp.Formula, MainCpp.complexity f = MainCpp.connectives f % 4294967296) ∧
    (∀ f : MatchCpp.Formula, MatchCpp.complexity f = MatchCpp.connectives f % 4294967296) ∧
    (∀ f : MainCpp.Formula, MainCpp.connectives f < 4294967296 →
      MainCpp.complexity f = MainCpp.connectives f) ∧
    (∀ f : MatchCpp.Formula, MatchCpp.connectives f < 4294967296 →
      MatchCpp.complexity f = MatchCpp.connectives f) ∧
    MainCpp.complexity MainCpp.demoFormula = 3 ∧
    MatchCpp.complexity MatchCpp.demoFormula = 3 := by
  refine ⟨main_complexity_eq_mod, match_complexity_eq_mod, ?_, ?_, by decide, by decide⟩
  · intro f h
    rw [main_complexity_eq_mod]
    exact Nat.mod_eq_of_lt h
  · intro f h
    rw [match_complexity_eq_mod]
    exact Nat.mod_eq_of_lt h

/-- Witness of the amended C6 at `(p0 & p1) -> ~p2`, in `main.cpp` and in `match.cpp`. -/
theorem complexity_counts_connectives_witness :
    MainCpp.connectives MainCpp.demoFormula < 4294967296 ∧
    MainCpp.complexity MainCpp.demoFormula = MainCpp.connectives MainCpp.demoFormula ∧
    MatchCpp.connectives MatchCpp.demoFormula < 4294967296 ∧
    MatchCpp.complexity MatchCpp.demoFormula = MatchCpp.connectives MatchCpp.demoFormula :=
  ⟨by decide, complexity_counts_connectives.2.2.1 MainCpp.demoFormula (by decide),
   by decide, complexity_counts_connectives.2.2.2.1 MatchCpp.demoFormula (by decide)⟩

/-! ## Variable count -/

theorem match_varcount_of_le (f : MatchCpp.Formula) :
    ∀ c : Int, c + MatchCpp.atomCount f ≤ INT_MAX →
      MatchCpp.varcount f c = some (c + MatchCpp.atomCount f) := by
  induction f with
  | False => intro c _; simp [MatchCpp.varcount, MatchCpp.atomCount]
  | True => intro c _; simp [MatchCpp.varcount, MatchCpp.atomCount]
  | Atom n =>
      intro c h
      simp only [MatchCpp.atomCount, INT_MAX] at h
      simp only [MatchCpp.varcount, MatchCpp.atomCount, intIncrement, INT_MAX]
      rw [if_pos (by omega)]
      rfl
  | Not g ih => intro c h; exact ih c h
  | Binary op l r ihl ihr =>
      intro c h
      simp only [MatchCpp.atomCount, Nat.cast_add] at h
      have hl := ihl c (by omega)
      have hr := ihr (c + MatchCpp.atomCount l) (by omega)
      simp only [MatchCpp.varcount, MatchCpp.atomCount, hl, hr, Nat.cast_add,
        Option.bind_eq_bind, Option.some_bind]
      congr 1
      omega

theorem match_varcount_sound (f : MatchCpp.Formula) :
    ∀ c r : Int, MatchCpp.varcount f c = some r →
      r = c + MatchCpp.atomCount f ∧ (c ≤ INT_MAX → r ≤ INT_MAX) := by
  induction f with
  | False => intro c r h; simp [MatchCpp.varcount] at h; simp [MatchCpp.atomCount, h]
  | True => intro c r h; simp [MatchCpp.varcount] at h; simp [MatchCpp.atomCount, h]
  | Atom n =>
      intro c r h
      simp only [MatchCpp.varcount, intIncrement] at h
      split at h
      · rename_i hlt
        simp only [Option.some.injEq] at h
        simp only [INT_MAX] at hlt ⊢
        simp only [MatchCpp.atomCount, Nat.cast_one]
        omega
      · simp at h
  | Not g ih => intro c r h; exact ih c r h
  | Binary op l r ihl ihr =>
      intro c res h
      simp only [MatchCpp.varcount, Option.bind_eq_bind] at h
      cases hl : MatchCpp.varcount l c with
      | none => simp [hl] at h
      | some c1 =>
          rw [hl, Option.some_bind] at h
          obtain ⟨e1, b1⟩ := ihl c c1 hl
          obtain ⟨e2, b2⟩ := ihr c1 res h
          refine ⟨?_, fun hc => b2 (b1 hc)⟩
          simp only [MatchCpp.atomCount, Nat.cast_add]
          omega

theorem visitor_varcount_of_le (f : VisitorCpp.Formula) :
    ∀ c : Int, c + VisitorCpp.atomCount f ≤ INT_MAX →
      VisitorCpp.varcount f c = some (c + VisitorCpp.atomCount f) := by
  induction f with
  | False => intro c _; simp [VisitorCpp.varcount, VisitorCpp.atomCount]
  | True => intro c _; simp [VisitorCpp.varcount, VisitorCpp.atomCount]
  | Atom n =>
      intro c h
      simp only [VisitorCpp.atomCount, INT_MAX] at h
      simp only [VisitorCpp.varcount, VisitorCpp.atomCount, intIncrement, INT_MAX]
      rw [if_pos (by omega)]
      rfl
  | Not g ih => intro c h; exact ih c h
  | Binary op l r ihl ihr =>
      intro c h
      simp only [VisitorCpp.atomCount, Nat.cast_add] at h
      have hl := ihl c (by omega)
      have hr := ihr (c + VisitorCpp.atomCount l) (by omega)
      simp only [VisitorCpp.varcount, VisitorCpp.atomCount, hl, hr, Nat.cast_add,
        Option.bind_eq_bind, Option.some_bind]
      congr 1
      omega

theorem visitor_varcount_sound (f : VisitorCpp.Formula) :
    ∀ c r : Int, VisitorCpp.varcount f c = some r →
      r = c + VisitorCpp.atomCount f ∧ (c ≤ INT_MAX → r ≤ INT_MAX) := by
  induction f with
  | False => intro c r h; simp [VisitorCpp.varcount] at h; simp [VisitorCpp.atomCount, h]
  | True => intro c r h; simp [VisitorCpp.varcount] at h; simp [VisitorCpp.atomCount, h]
  | Atom n =>
      intro c r h
      simp only [VisitorCpp.varcount, intIncrement] at h
      split at h
      · rename_i hlt
        simp only [Option.some.injEq] at h
        simp only [INT_MAX] at hlt ⊢
        simp only [VisitorCpp.atomCount, Nat.cast_one]
        omega
      · simp at h
  | Not g ih => intro c r h; exact ih c r h
  | Binary op l r ihl ihr =>
      intro c res h
      simp only [VisitorCpp.varcount, Option.bind_eq_bind] at h
      cases hl : VisitorCpp.varcount l c with
      | none => simp [hl] at h
      | some c1 =>
          rw [hl, Option.some_bind] at h
          obtain ⟨e1, b1⟩ := ihl c c1 hl
          obtain ⟨e2, b2⟩ := ihr c1 res h
          refine ⟨?_, fun hc => b2 (b1 hc)⟩
          simp only [VisitorCpp.atomCount, Nat.cast_add]
          omega


theorem match_varcount_overflow (f : MatchCpp.Formula) :
    ∀ c : Int, c ≤ INT_MAX → INT_MAX < c + MatchCpp.atomCount f →
      MatchCpp.varcount f c = none := by
  induction f with
  | False => intro c h2 h; simp [MatchCpp.atomCount] at h; omega
  | True => intro c h2 h; simp [MatchCpp.atomCount] at h; omega
  | Atom n =>
      intro c h2 h
      simp only [MatchCpp.atomCount, INT_MAX] at h h2
      simp only [MatchCpp.varcount, intIncrement, INT_MAX]
      rw [if_neg (by omega)]
  | Not g ih => intro c h2 h; exact ih c h2 h
  | Binary op l r ihl ihr =>
      intro c h2 h
      simp only [MatchCpp.atomCount, Nat.cast_add] at h
      by_cases hc : c + MatchCpp.atomCount l ≤ INT_MAX
      · have hl := match_varcount_of_le l c hc
        have hr := ihr (c + MatchCpp.atomCount l) hc (by omega)
        simp [MatchCpp.varcount, hl, hr]
      · have hl := ihl c h2 (by omega)
        simp [MatchCpp.varcount, hl]

theorem visitor_varcount_overflow (f : VisitorCpp.Formula) :
    ∀ c : Int, c ≤ INT_MAX → INT_MAX < c + VisitorCpp.atomCount f →
      VisitorCpp.varcount f c = none := by
  induction f with
  | False => intro c h2 h; simp [VisitorCpp.atomCount] at h; omega
  | True => intro c h2 h; simp [VisitorCpp.atomCount] at h; omega
  | Atom n =>
      intro c h2 h
      simp only [VisitorCpp.atomCount, INT_MAX] at h h2
      simp only [VisitorCpp.varcount, intIncrement, INT_MAX]
      rw [if_neg (by omega)]
  | Not g ih => intro c h2 h; exact ih c h2 h
  | Binary op l r ihl ihr =>
      intro c h2 h
      simp only [VisitorCpp.atomCount, Nat.cast_add] at h
      by_cases hc : c + VisitorCpp.atomCount l ≤ INT_MAX
      · have hl := visitor_varcount_of_le l c hc
        have hr := ihr (c + VisitorCpp.atomCount l) hc (by omega)
        simp [VisitorCpp.varcount, hl, hr]
      · have hl := ihl c h2 (by omega)
        simp [VisitorCpp.varcount, hl]

/-- Counterexample to C7 as stated: from the accumulator value `INT_MAX`, `varcount` of a single
atom overflows the `int` and does not leave `INT_MAX + 1`, in `match.cpp` and in
`visitor.cpp`. -/
theorem varcount_overflows :
    MatchCpp.varcount (.Atom "p0") 2147483647 = none ∧
    MatchCpp.varcount (.Atom "p0") 2147483647
      ≠ some (2147483647 + MatchCpp.atomCount (.Atom "p0")) ∧
    VisitorCpp.varcount (.Atom "p0") 2147483647 = none ∧
    VisitorCpp.varcount (.Atom "p0") 2147483647
      ≠ some (2147483647 + VisitorCpp.atomCount (.Atom "p0")) := by
  refine ⟨by decide, by decide, by decide, by decide⟩

/-- Claim C7, amended: in `match.cpp` and in `visitor.cpp`, for every formula `f` and every
initial value `c` of the accumulator with `c` plus the number of atom occurrences of `f` at
most `INT_MAX`, `varcount(f, c)` leaves `c` plus that number (every occurrence counted); a
result is never anything else, and beyond `INT_MAX` a `c++` overflows; from `c = 0` a result is
non-negative, and it is 3 for `(p0 & p1) -> ~p2`. -/
theorem varcount_adds_atom_count :
    (∀ (f : MatchCpp.Formula) (c : Int), c + MatchCpp.atomCount f ≤ 2147483647 →
      MatchCpp.varcount f c = some (c + MatchCpp.atomCount f)) ∧
    (∀ (f : VisitorCpp.Formula) (c : Int), c + VisitorCpp.atomCount f ≤ 2147483647 →
      VisitorCpp.varcount f c = some (c + VisitorCpp.atomCount f)) ∧
    (∀ (f : MatchCpp.Formula) (c r : Int), MatchCpp.varcount f c = some r →
      r = c + MatchCpp.atomCount f) ∧
    (∀ (f : VisitorCpp.Formula) (c r : Int), VisitorCpp.varcount f c = some r →
      r = c + VisitorCpp.atomCount f) ∧
    (∀ (f : MatchCpp.Formula) (c : Int), c ≤ 2147483647 →
      2147483647 < c + MatchCpp.atomCount f → MatchCpp.varcount f c = none) ∧
    (∀ (f : VisitorCpp.Formula) (c : Int), c ≤ 2147483647 →
      2147483647 < c + VisitorCpp.atomCount f → VisitorCpp.varcount f c = none) ∧
    (∀ (f : MatchCpp.Formula) (r : Int), MatchCpp.varcount f 0 = some r → 0 ≤ r) ∧
    (∀ (f : VisitorCpp.Formula) (r : Int), VisitorCpp.varcount f 0 = some r → 0 ≤ r) ∧
    MatchCpp.varcount MatchCpp.demoFormula 0 = some 3 ∧
    VisitorCpp.varcount VisitorCpp.demoFormula 0 = some 3 := by
  refine ⟨match_varcount_of_le, visitor_varcount_of_le,
    fun f c r h => (match_varcount_sound f c r h).1,
    fun f c r h => (visitor_varcount_sound f c r h).1,
    match_varcount_overflow, visitor_varcount_overflow, ?_, ?_, by decide, by decide⟩
  · intro f r h
    have e := (match_varcount_sound f 0 r h).1
    omega
  · intro f r h
    have e := (visitor_varcount_sound f 0 r h).1
    omega

/-- Witness of the amended C7: `(p0 & p1) -> ~p2` from `c = 0`, in `match.cpp` and in
`visitor.cpp`. -/
theorem varcount_adds_atom_count_witness :
    (0 : Int) + MatchCpp.atomCount MatchCpp.demoFormula ≤ 2147483647 ∧
    MatchCpp.varcount MatchCpp.demoFormula 0
      = some (0 + MatchCpp.atomCount MatchCpp.demoFormula) ∧
    VisitorCpp.varcount VisitorCpp.demoFormula 0
      = some (0 + VisitorCpp.atomCount VisitorCpp.demoFormula) :=
  ⟨by decide, varcount_adds_atom_count.1 MatchCpp.demoFormula 0 (by decide),
   varcount_adds_atom_count.2.1 VisitorCpp.demoFormula 0 (by decide)⟩

/-! ## Substitution: full match, absent pattern, remaining occurrences -/

theorem main_mem_subformulas_self (f : MainCpp.Formula) : f ∈ MainCpp.subformulas f := by
  cases f <;> simp [MainCpp.subformulas]

/-- Claim C11: `substitute(what, what, with)` is `with`, for every `what` and `with`. -/
theorem substitute_full_match (what with_ : MainCpp.Formula) :
    MainCpp.substitute what what with_ = with_ := by
  have h : MainCpp.equal what what = true := (main_equal_iff_eq what what).mpr rfl
  unfold MainCpp.substitute
  rw [if_pos h]

theorem main_substitute_of_absent (what with_ f : MainCpp.Formula)
    (h : MainCpp.Absent what f) : MainCpp.substitute f what with_ = f := by
  induction f with
  | False =>
      have h0 := h _ (main_mem_subformulas_self .False)
      unfold MainCpp.substitute
      simp [h0]
  | True =>
      have h0 := h _ (main_mem_subformulas_self .True)
      unfold MainCpp.substitute
      simp [h0]
  | Atom n =>
      have h0 := h _ (main_mem_subformulas_self (.Atom n))
      unfold MainCpp.substitute
      simp [h0]
  | Not g ih =>
      have h0 := h _ (main_mem_subformulas_self (.Not g))
      have hg : MainCpp.Absent what g := fun s hs => h s (by simp [MainCpp.subformulas, hs])
      unfold MainCpp.substitute
      simp [h0, ih hg]
  | Binary op l r ihl ihr =>
      have h0 := h _ (main_mem_subformulas_self (.Binary op l r))
      have hl : MainCpp.Absent what l := fun s hs => h s (by simp [MainCpp.subformulas, hs])
      have hr : MainCpp.Absent what r := fun s hs => h s (by simp [MainCpp.subformulas, hs])
      unfold MainCpp.substitute
      simp [h0, ihl hl, ihr hr]

/-- Claim C12: if no sub-formula of `f` (`f` itself included) is structurally equal to `what`,
then `substitute(f, what, with)` is structurally equal to `f`. -/
theorem substitute_absent_pattern (f what with_ : MainCpp.Formula)
    (h : ∀ s ∈ MainCpp.subformulas f, MainCpp.equal s what = false) :
    MainCpp.equal (MainCpp.substitute f what with_) f = true := by
  rw [main_equal_iff_eq]
  exact main_substitute_of_absent what with_ f h

/-- Witness of C12: `Not(p1)` does not occur in `(p0 & p1) -> ~p2`. -/
theorem substitute_absent_pattern_witness :
    (∀ s ∈ MainCpp.subformulas MainCpp.demoFormula,
      MainCpp.equal s (.Not (.Atom 1)) = false) ∧
    MainCpp.equal (MainCpp.substitute MainCpp.demoFormula (.Not (.Atom 1)) .True)
      MainCpp.demoFormula = true :=
  ⟨by decide, substitute_absent_pattern MainCpp.demoFormula (.Not (.Atom 1)) .True (by decide)⟩

theorem main_substitute_unchanged_or_mem (what with_ f : MainCpp.Formula) :
    MainCpp.substitute f what with_ = f ∨
      with_ ∈ MainCpp.subformulas (MainCpp.substitute f what with_) := by
  induction f with
  | False =>
      unfold MainCpp.substitute
      split
      · exact Or.inr (main_mem_subformulas_self with_)
      · exact Or.inl rfl
  | True =>
      unfold MainCpp.substitute
      split
      · exact Or.inr (main_mem_subformulas_self with_)
      · exact Or.inl rfl
  | Atom n =>
      unfold MainCpp.substitute
      split
      · exact Or.inr (main_mem_subformulas_self with_)
      · exact Or.inl rfl
  | Not g ih =>
      unfold MainCpp.substitute
      split
      · exact Or.inr (main_mem_subformulas_self with_)
      · rcases ih with e | m
        · left; simp only [e]
        · right; simp [MainCpp.subformulas, m]
  | Binary op l r ihl ihr =>
      unfold MainCpp.substitute
      split
      · exact Or.inr (main_mem_subformulas_self with_)
      · rcases ihl with el | ml
        · rcases ihr with er | mr
          · left; simp only [el, er]
          · right; simp [MainCpp.subformulas, mr]
        · right; simp [MainCpp.subformulas, ml]

theorem main_substitute_removes (what with_ : MainCpp.Formula)
    (hw : MainCpp.Absent what with_) (hn : with_ ∉ MainCpp.subformulas what)
    (f : MainCpp.Formula) : MainCpp.Absent what (MainCpp.substitute f what with_) := by
  have leaf : ∀ g : MainCpp.Formula, MainCpp.subformulas g = [g] →
      (¬ MainCpp.equal g what = true) → MainCpp.Absent what g := by
    intro g hg hne s hs
    rw [hg, List.mem_singleton] at hs
    subst hs
    simpa using hne
  induction f with
  | False =>
      unfold MainCpp.substitute
      split
      · exact hw
      · rename_i hne; exact leaf _ rfl hne
  | True =>
      unfold MainCpp.substitute
      split
      · exact hw
      · rename_i hne; exact leaf _ rfl hne
  | Atom n =>
      unfold MainCpp.substitute
      split
      · exact hw
      · rename_i hne; exact leaf _ rfl hne
  | Not g ih =>
      unfold MainCpp.substitute
      split
      · exact hw
      · rename_i hne
        intro s hs
        simp only [MainCpp.subformulas, List.mem_cons] at hs
        rcases hs with rfl | hs
        · rcases main_substitute_unchanged_or_mem what with_ g with e | m
          · rw [e]; simpa using hne
          · cases hq : MainCpp.equal (.Not (MainCpp.substitute g what with_)) what with
            | false => rfl
            | true =>
                exfalso
                rw [main_equal_iff_eq] at hq
                apply hn
                rw [← hq]
                simp [MainCpp.subformulas, m]
        · exact ih s hs
  | Binary op l r ihl ihr =>
      unfold MainCpp.substitute
      split
      · exact hw
      · rename_i hne
        intro s hs
        simp only [MainCpp.subformulas, List.mem_cons, List.mem_append] at hs
        rcases hs with rfl | hs | hs
        · cases hq : MainCpp.equal (.Binary op (MainCpp.substitute l what with_)
              (MainCpp.substitute r what with_)) what with
          | false => rfl
          | true =>
              exfalso
              rw [main_equal_iff_eq] at hq
              rcases main_substitute_unchanged_or_mem what with_ l with el | ml
              · rcases main_substitute_unchanged_or_mem what with_ r with er | mr
                · rw [el, er] at hq
                  exact hne ((main_equal_iff_eq _ _).mpr hq)
                · apply hn
                  rw [← hq]
                  simp [MainCpp.subformulas, mr]
              · apply hn
                rw [← hq]
                simp [MainCpp.subformulas, ml]
        · exact ihl s hs
        · exact ihr s hs

/-- Counterexample to C14 as stated: `p0` has no sub-formula equal to `Not(p0)`, yet replacing
`Not(p0)` by `p0` in `Not(Not(p0))` gives `Not(p0)`, the pattern itself. -/
theorem substitute_rebuilds_pattern :
    (∀ s ∈ MainCpp.subformulas (.Atom 0), MainCpp.equal s (.Not (.Atom 0)) = false) ∧
    MainCpp.substitute MainCpp.doubleNegation (.Not (.Atom 0)) (.Atom 0) = .Not (.Atom 0) ∧
    ¬ (∀ s ∈ MainCpp.subformulas
          (MainCpp.substitute MainCpp.doubleNegation (.Not (.Atom 0)) (.Atom 0)),
        MainCpp.equal s (.Not (.Atom 0)) = false) := by
  refine ⟨by decide, by decide, by decide⟩

/-- Claim C14, amended: for every `f`, `what` and `with` such that no sub-formula of `with` is
structurally equal to `what` and no sub-formula of `what` is structurally equal to `with`, the
result `substitute(f, what, with)` contains no sub-formula structurally equal to `what`. -/
theorem substitute_removes_pattern (f what with_ : MainCpp.Formula)
    (hw : ∀ s ∈ MainCpp.subformulas with_, MainCpp.equal s what = false)
    (hn : ∀ s ∈ MainCpp.subformulas what, MainCpp.equal s with_ = false) :
    ∀ s ∈ MainCpp.subformulas (MainCpp.substitute f what with_),
      MainCpp.equal s what = false := by
  have hmem : with_ ∉ MainCpp.subformulas what := by
    intro hm
    have h1 := hn with_ hm
    rw [(main_equal_iff_eq with_ with_).mpr rfl] at h1
    exact Bool.noConfusion h1
  exact main_substitute_removes what with_ hw hmem f

/-- Witness of the amended C14: `p0` replaced by `Not(p3)` in `(p0 & p1) -> ~p2`. -/
theorem substitute_removes_pattern_witness :
    (∀ s ∈ MainCpp.subformulas (.Not (.Atom 3)), MainCpp.equal s (.Atom 0) = false) ∧
    (∀ s ∈ MainCpp.subformulas (.Atom 0), MainCpp.equal s (.Not (.Atom 3)) = false) ∧
    (∀ s ∈ MainCpp.subformulas
        (MainCpp.substitute MainCpp.demoFormula (.Atom 0) (.Not (.Atom 3))),
      MainCpp.equal s (.Atom 0) = false) :=
  ⟨by decide, by decide,
   substitute_removes_pattern MainCpp.demoFormula (.Atom 0) (.Not (.Atom 3))
     (by decide) (by decide)⟩

/-! ## Evaluation: substitution of equivalents, atoms read -/

theorem main_evaluate_substitute (what with_ : MainCpp.Formula) (val : MainCpp.Valuation)
    (h : MainCpp.evaluate what val = MainCpp.evaluate with_ val) (f : MainCpp.Formula) :
    MainCpp.evaluate (MainCpp.substitute f what with_) val = MainCpp.evaluate f val := by
  have matched : ∀ g : MainCpp.Formula, MainCpp.equal g what = true →
      MainCpp.evaluate with_ val = MainCpp.evaluate g val := by
    intro g hg
    rw [main_equal_iff_eq] at hg
    rw [hg, h]
  induction f with
  | False => unfold MainCpp.substitute; split; exact matched _ ‹_›; rfl
  | True => unfold MainCpp.substitute; split; exact matched _ ‹_›; rfl
  | Atom n => unfold MainCpp.substitute; split; exact matched _ ‹_›; rfl
  | Not g ih =>
      unfold MainCpp.substitute
      split
      · exact matched _ ‹_›
      · simp only [MainCpp.evaluate, ih]
  | Binary op l r ihl ihr =>
      unfold MainCpp.substitute
      split
      · exact matched _ ‹_›
      · simp only [MainCpp.evaluate, ihl, ihr]

/-- Claim C17: for a valuation `v` that binds every atom of `f`, `what` and `with`, if
`evaluate(what, v) = evaluate(with, v)` then
`evaluate(substitute(f, what, with), v) = evaluate(f, v)`. -/
theorem substitute_preserves_truth (f what with_ : MainCpp.Formula) (val : MainCpp.Valuation)
    (_hf : MainCpp.Binds val f) (_hwhat : MainCpp.Binds val what)
    (_hwith : MainCpp.Binds val with_)
    (h : MainCpp.evaluate what val = MainCpp.evaluate with_ val) :
    MainCpp.evaluate (MainCpp.substitute f what with_) val = MainCpp.evaluate f val :=
  main_evaluate_substitute what with_ val h f

/-- Witness of C17: `p0 & p1` replaced by `p1` in `(p0 & p1) -> ~p2` under
`{p0:true, p1:true, p2:false}`. -/
theorem substitute_preserves_truth_witness :
    MainCpp.evaluate (.Binary .And (.Atom 0) (.Atom 1)) MainCpp.valuationB
      = MainCpp.evaluate (.Atom 1) MainCpp.valuationB ∧
    MainCpp.evaluate
      (MainCpp.substitute MainCpp.demoFormula (.Binary .And (.Atom 0) (.Atom 1)) (.Atom 1))
      MainCpp.valuationB = MainCpp.evaluate MainCpp.demoFormula MainCpp.valuationB :=
  ⟨by decide,
   substitute_preserves_truth MainCpp.demoFormula (.Binary .And (.Atom 0) (.Atom 1)) (.Atom 1)
     MainCpp.valuationB (by decide) (by decide) (by decide) (by decide)⟩

/-- Claim C19: if two valuations agree (same binding or both absent) on every atom index
occurring in `f`, then `evaluate(f, v1)` and `evaluate(f, v2)` have the same outcome. -/
theorem evaluate_reads_only_atoms (f : MainCpp.Formula) (v1 v2 : MainCpp.Valuation)
    (h : ∀ n ∈ MainCpp.atoms f, v1 n = v2 n) :
    MainCpp.evaluate f v1 = MainCpp.evaluate f v2 := by
  induction f with
  | False => rfl
  | True => rfl
  | Atom n => simpa [MainCpp.evaluate, MainCpp.atoms] using h
  | Not g ih =>
      have hg := ih (by simpa [MainCpp.atoms] using h)
      simp only [MainCpp.evaluate, hg]
  | Binary op l r ihl ihr =>
      have hl := ihl (fun n hn => h n (by simp [MainCpp.atoms, hn]))
      have hr := ihr (fun n hn => h n (by simp [MainCpp.atoms, hn]))
      simp only [MainCpp.evaluate, hl, hr]

/-- Witness of C19: `p0 & p1` under `{p0:true, p1:true, p2:false}` and under
`{p0:true, p1:true}`, which differ on `p2` only. -/
theorem evaluate_reads_only_atoms_witness :
    (∀ n ∈ MainCpp.atoms (.Binary .And (.Atom 0) (.Atom 1)),
      MainCpp.valuationB n = MainCpp.Valuation.ofList [(0, true), (1, true)] n) ∧
    MainCpp.valuationB 2 ≠ MainCpp.Valuation.ofList [(0, true), (1, true)] 2 ∧
    MainCpp.evaluate (.Binary .And (.Atom 0) (.Atom 1)) MainCpp.valuationB
      = MainCpp.evaluate (.Binary .And (.Atom 0) (.Atom 1))
          (MainCpp.Valuation.ofList [(0, true), (1, true)]) :=
  ⟨by decide, by decide,
   evaluate_reads_only_atoms (.Binary .And (.Atom 0) (.Atom 1)) MainCpp.valuationB
     (MainCpp.Valuation.ofList [(0, true), (1, true)]) (by decide)⟩

/-! ## The demonstration of `match.cpp` and its rendering of names -/

/-- Claim C15, at the code: the formula `F` built by `main` of `match.cpp` has `Not{p0}` on the
right, not `Not{p2}`: it is not the formula of the comment, `print(F)` writes
`((p0 & p1) -> ~p0)`; `complexity(F)` is 3 and `varcount` leaves 3. -/
theorem match_main_negates_p0 :
    MatchCpp.mainFormula ≠ MatchCpp.demoFormula ∧
    MatchCpp.print MatchCpp.mainFormula "" = "((p0 & p1) -> ~p0)" ∧
    MatchCpp.print MatchCpp.mainFormula "" ≠ "((p0 & p1) -> ~p2)" ∧
    MatchCpp.complexity MatchCpp.mainFormula = 3 ∧
    MatchCpp.varcount MatchCpp.mainFormula 0 = some 3 ∧
    MatchCpp.mainOutput = some "((p0 & p1) -> ~p0)\n3\n3\n" := by
  refine ⟨by decide, by decide, by decide, by decide, by decide, by decide⟩

/-- Claim C20: rendering of name-atom formulas is not injective: `Atom{"F"}` and `False{}` both
print `F`, `Atom{"~p"}` and `Not{Atom{"p"}}` both print `~p`, and `equal` is false on each
pair. -/
theorem print_names_not_injective :
    (∃ f g : MatchCpp.Formula, MatchCpp.equal f g = false ∧
      MatchCpp.print f "" = MatchCpp.print g "") ∧
    MatchCpp.equal (.Atom "F") .False = false ∧
    MatchCpp.print (.Atom "F") "" = "F" ∧
    MatchCpp.print .False "" = "F" ∧
    MatchCpp.equal (.Atom "~p") (.Not (.Atom "p")) = false ∧
    MatchCpp.print (.Atom "~p") "" = "~p" ∧
    MatchCpp.print (.Not (.Atom "p")) "" = "~p" := by
  refine ⟨⟨.Atom "F", .False, by decide, by decide⟩, by decide, by decide, by decide,
    by decide, by decide, by decide⟩

/-! ## Decimal digits -/

theorem digitChar_decimal (k : Nat) (h : k < 10) :
    MainCpp.IsDecimalDigit (Nat.digitChar k) ∧ (Nat.digitChar k).toNat - 48 = k := by
  unfold MainCpp.IsDecimalDigit
  interval_cases k <;> decide

theorem decimalValue_append_singleton (l : List Char) (d : Char) :
    MainCpp.decimalValue (l ++ [d]) = 10 * MainCpp.decimalValue l + (d.toNat - 48) := by
  simp [MainCpp.decimalValue, List.foldl_append]

theorem toDigitsCore_decimal (fuel : Nat) :
    ∀ (n : Nat) (ds : List Char), n < fuel →
      ∃ l : List Char, Nat.toDigitsCore 10 fuel n ds = l ++ ds ∧
        (∀ c ∈ l, MainCpp.IsDecimalDigit c) ∧ MainCpp.decimalValue l = n := by
  induction fuel with
  | zero => intro n ds h; omega
  | succ fuel ih =>
      intro n ds h
      have hd := digitChar_decimal (n % 10) (Nat.mod_lt n (by decide))
      by_cases hq : n / 10 = 0
      · refine ⟨[Nat.digitChar (n % 10)], ?_, ?_, ?_⟩
        · simp [Nat.toDigitsCore, hq]
        · intro c hc
          rw [List.mem_singleton] at hc
          rw [hc]
          exact hd.1
        · have e := decimalValue_append_singleton [] (Nat.digitChar (n % 10))
          simp only [List.nil_append] at e
          rw [e, hd.2]
          simp only [MainCpp.decimalValue, List.foldl_nil]
          omega
      · obtain ⟨l, hl, hdig, hval⟩ := ih (n / 10) (Nat.digitChar (n % 10) :: ds) (by omega)
        refine ⟨l ++ [Nat.digitChar (n % 10)], ?_, ?_, ?_⟩
        · simp [Nat.toDigitsCore, hq, hl]
        · intro c hc
          rw [List.mem_append, List.mem_singleton] at hc
          rcases hc with hc | hc
          · exact hdig c hc
          · rw [hc]; exact hd.1
        · rw [decimalValue_append_singleton, hval, hd.2]
          omega

theorem toDigits_decimal (n : Nat) :
    (∀ c ∈ Nat.toDigits 10 n, MainCpp.IsDecimalDigit c) ∧
      MainCpp.decimalValue (Nat.toDigits 10 n) = n := by
  obtain ⟨l, hl, hdig, hval⟩ := toDigitsCore_decimal (n + 1) n [] (Nat.lt_succ_self n)
  rw [List.append_nil] at hl
  unfold Nat.toDigits
  rw [hl]
  exact ⟨hdig, hval⟩

theorem toDigits_injective (n m : Nat) (h : Nat.toDigits 10 n = Nat.toDigits 10 m) :
    n = m := by
  rw [← (toDigits_decimal n).2, ← (toDigits_decimal m).2, h]

theorem repr_injective (n m : Nat) (h : Nat.repr n = Nat.repr m) : n = m := by
  apply toDigits_injective
  have := congrArg String.data h
  simpa [Nat.repr, List.asString] using this

theorem digits_prefix_unique (l1 : List Char) :
    ∀ (l2 x y : List Char), (∀ c ∈ l1, MainCpp.IsDecimalDigit c) →
      (∀ c ∈ l2, MainCpp.IsDecimalDigit c) → MainCpp.NoDigitAhead x → MainCpp.NoDigitAhead y →
      l1 ++ x = l2 ++ y → l1 = l2 ∧ x = y := by
  induction l1 with
  | nil =>
      intro l2 x y _ h2 hx _ h
      cases l2 with
      | nil => exact ⟨rfl, by simpa using h⟩
      | cons c l2 =>
          exfalso
          simp only [List.nil_append, List.cons_append] at h
          subst h
          exact hx (h2 c (List.mem_cons_self c l2))
  | cons a l1 ih =>
      intro l2 x y h1 h2 hx hy h
      cases l2 with
      | nil =>
          exfalso
          simp only [List.nil_append, List.cons_append] at h
          subst h
          exact hy (h1 a (List.mem_cons_self a l1))
      | cons c l2 =>
          simp only [List.cons_append, List.cons.injEq] at h
          obtain ⟨hac, hrest⟩ := h
          obtain ⟨e1, e2⟩ := ih l2 x y (fun c hc => h1 c (List.mem_cons_of_mem a hc))
            (fun c' hc => h2 c' (List.mem_cons_of_mem c hc)) hx hy hrest
          exact ⟨by rw [hac, e1], e2⟩

theorem main_render_data (f : MainCpp.Formula) :
    (MainCpp.render f).data = MainCpp.renderChars f := by
  induction f with
  | False => rfl
  | True => rfl
  | Atom n => simp [MainCpp.render, MainCpp.renderChars, Nat.repr, List.asString]
  | Not g ih => simp [MainCpp.render, MainCpp.renderChars, ih]
  | Binary op l r ihl ihr =>
      simp [MainCpp.render, MainCpp.renderChars, ihl, ihr, List.append_assoc]

/-! ## Unique reading of the text written by `printFormula` -/

theorem main_noDigitAhead_sign (op : MainCpp.BinaryType) (rest : List Char) :
    MainCpp.NoDigitAhead ((MainCpp.renderSign op).data ++ rest) := by
  cases op <;> simp [MainCpp.renderSign, MainCpp.NoDigitAhead, MainCpp.IsDecimalDigit]

theorem main_noDigitAhead_paren (rest : List Char) : MainCpp.NoDigitAhead (')' :: rest) := by
  simp [MainCpp.NoDigitAhead, MainCpp.IsDecimalDigit]

theorem main_sign_prefix_unique (op op' : MainCpp.BinaryType) (a b : List Char)
    (h : (MainCpp.renderSign op).data ++ a = (MainCpp.renderSign op').data ++ b) :
    op = op' ∧ a = b := by
  cases op <;> cases op' <;> simp [MainCpp.renderSign] at h <;> exact ⟨rfl, h⟩

theorem main_renderChars_prefix_unique (f : MainCpp.Formula) :
    ∀ (g : MainCpp.Formula) (x y : List Char),
      MainCpp.NoDigitAhead x → MainCpp.NoDigitAhead y →
      MainCpp.renderChars f ++ x = MainCpp.renderChars g ++ y → f = g ∧ x = y := by
  induction f with
  | False =>
      intro g x y _ _ h
      cases g <;> simp [MainCpp.renderChars] at h
      exact ⟨rfl, h⟩
  | True =>
      intro g x y _ _ h
      cases g <;> simp [MainCpp.renderChars] at h
      exact ⟨rfl, h⟩
  | Atom n =>
      intro g x y hx hy h
      cases g <;> simp [MainCpp.renderChars] at h
      rename_i m
      obtain ⟨e1, e2⟩ := digits_prefix_unique _ _ x y (toDigits_decimal n).1
        (toDigits_decimal m).1 hx hy h
      exact ⟨by rw [toDigits_injective n m e1], e2⟩
  | Not f' ih =>
      intro g x y hx hy h
      cases g <;> simp [MainCpp.renderChars] at h
      rename_i g'
      obtain ⟨e1, e2⟩ := ih g' x y hx hy h
      exact ⟨by rw [e1], e2⟩
  | Binary op l r ihl ihr =>
      intro g x y hx hy h
      cases g <;> simp [MainCpp.renderChars] at h
      rename_i op' l' r'
      obtain ⟨e1, h1⟩ :=
        ihl l' _ _ (main_noDigitAhead_sign op _) (main_noDigitAhead_sign op' _) h
      obtain ⟨e2, h2⟩ := main_sign_prefix_unique op op' _ _ h1
      obtain ⟨e3, h3⟩ := ihr r' _ _ (main_noDigitAhead_paren x) (main_noDigitAhead_paren y) h2
      refine ⟨by rw [e1, e2, e3], ?_⟩
      simpa using h3

theorem main_render_injective (f g : MainCpp.Formula)
    (h : MainCpp.render f = MainCpp.render g) : f = g := by
  have hd : MainCpp.renderChars f ++ [] = MainCpp.renderChars g ++ [] := by
    rw [← main_render_data, ← main_render_data, h]
  exact (main_renderChars_prefix_unique f g [] [] trivial trivial hd).1

theorem string_append_left_cancel (out a b : String) (h : out ++ a = out ++ b) : a = b := by
  have hd := congrArg String.data h
  simp only [String.data_append, List.append_cancel_left_eq] at hd
  exact String.ext hd

/-- Claim C18: rendering of index-atom formulas is injective: `printFormula` writes the same
text for `f` and `g` exactly when `equal(f, g)` is true. -/
theorem printFormula_injective (f g : MainCpp.Formula) :
    (MainCpp.printFormula f "" = MainCpp.printFormula g "" ↔ MainCpp.equal f g = true) ∧
    (∀ out : String,
      MainCpp.printFormula f out = MainCpp.printFormula g out ↔ MainCpp.equal f g = true) := by
  have key : ∀ out : String,
      MainCpp.printFormula f out = MainCpp.printFormula g out ↔ MainCpp.equal f g = true := by
    intro out
    rw [main_printFormula_eq, main_printFormula_eq, main_equal_iff_eq]
    constructor
    · intro h
      exact main_render_injective f g (string_append_left_cancel out _ _ h)
    · intro h
      rw [h]
  exact ⟨key "", key⟩

/-! ## `main.cpp` and `match.cpp` side by side -/

theorem toMatchFormula_complexity (f : MainCpp.Formula) :
    MatchCpp.complexity (toMatchFormula f) = MainCpp.complexity f := by
  induction f with
  | False => rfl
  | True => rfl
  | Atom n => rfl
  | Not g ih => simp only [toMatchFormula, MatchCpp.complexity, MainCpp.complexity, ih]
  | Binary op l r ihl ihr =>
      cases op <;>
        simp only [toMatchFormula, MatchCpp.complexity, MainCpp.complexity, ihl, ihr]

theorem toMatchFormula_render (f : MainCpp.Formula) :
    MatchCpp.render (toMatchFormula f) = MainCpp.render f := by
  induction f with
  | False => rfl
  | True => rfl
  | Atom n => rfl
  | Not g ih => simp only [toMatchFormula, MatchCpp.render, MainCpp.render, ih]
  | Binary op l r ihl ihr =>
      cases op <;>
        simp only [toMatchFormula, MatchCpp.render, MainCpp.render, MatchCpp.renderSign,
          MainCpp.renderSign, ihl, ihr]

theorem toMatchFormula_injective (f : MainCpp.Formula) :
    ∀ g : MainCpp.Formula, toMatchFormula f = toMatchFormula g → f = g := by
  induction f with
  | False =>
      intro g h
      cases g with
      | Binary op l r => cases op <;> simp [toMatchFormula] at h
      | _ => first | rfl | simp [toMatchFormula] at h
  | True =>
      intro g h
      cases g with
      | Binary op l r => cases op <;> simp [toMatchFormula] at h
      | _ => first | rfl | simp [toMatchFormula] at h
  | Atom n =>
      intro g h
      cases g with
      | Binary op l r => cases op <;> simp [toMatchFormula] at h
      | Atom m =>
          simp only [toMatchFormula, MatchCpp.Formula.Atom.injEq] at h
          rw [repr_injective n m (string_append_left_cancel "p" _ _ h)]
      | _ => simp [toMatchFormula] at h
  | Not f' ih =>
      intro g h
      cases g with
      | Binary op l r => cases op <;> simp [toMatchFormula] at h
      | Not g' =>
          simp only [toMatchFormula, MatchCpp.Formula.Not.injEq] at h
          rw [ih g' h]
      | _ => simp [toMatchFormula] at h
  | Binary op l r ihl ihr =>
      intro g h
      cases g with
      | Binary op' l' r' =>
          cases op <;> cases op' <;> simp [toMatchFormula] at h <;>
            rw [ihl l' h.1, ihr r' h.2]
      | _ => cases op <;> simp [toMatchFormula] at h

/-- Claim C16: for index-atom formulas `f`, `g` of `main.cpp` and their translations to
`match.cpp` (atom `n` named `p` followed by the decimal form of `n`), `complexity` returns the
same number, `equal` the same boolean, and `printFormula` writes the same text as `print`. -/
theorem main_and_match_agree (f g : MainCpp.Formula) :
    MainCpp.complexity f = MatchCpp.complexity (toMatchFormula f) ∧
    MainCpp.equal f g = MatchCpp.equal (toMatchFormula f) (toMatchFormula g) ∧
    (∀ out : String, MainCpp.printFormula f out = MatchCpp.print (toMatchFormula f) out) := by
  refine ⟨(toMatchFormula_complexity f).symm, ?_, ?_⟩
  · rw [main_equal_eq_decide, match_equal_eq_decide]
    apply decide_eq_decide.mpr
    constructor
    · intro h
      rw [h]
    · exact toMatchFormula_injective f g
  · intro out
    rw [main_printFormula_eq, match_print_eq, toMatchFormula_render]
